import Mathlib

/-!
# solve_poly.cpp: radix decoder and Lagrange interpolation over big integers

A shallow embedding of `convertToDecimal` and `interpolate` from `src/solve_poly.cpp`.

* `BigInt` (`boost::multiprecision::cpp_int`) is `Int`; its division truncates toward zero
  (`Int.tdiv`) and throws `std::overflow_error` on a zero divisor.
* `std::vector<BigInt>` is `List BigInt`; `v[a] += d` is `addAt v a d`.
* A call either returns a value or stops with a `Failure`, so `interpolate` returns
  `Except Failure (List BigInt)`.
-/

namespace SolvePoly

/-! ## The program -/

deriving instance DecidableEq for Except

/-- Ways in which a call can stop without returning a value.

The first three are what the C++ code can actually do:
* `length_error`: the `std::vector` constructor is given a negative element count (line 36);
* `out_of_bounds`: `points[i]` is read past the end of the vector (lines 39, 40, 48), which is
  undefined behaviour in C++ and is recorded here as a failure of its own;
* `overflow_error`: `cpp_int` division by zero (line 64).

The last three are the error kinds named by the specification. No statement of
`solve_poly.cpp` raises them; they are listed so that statements about them can be written. -/
inductive Failure where
  | length_error
  | out_of_bounds
  | overflow_error
  | InvalidThresholdError
  | DuplicateXCoordinateError
  | InexactDivisionError
  deriving DecidableEq, Repr

/-- Arbitrary-precision integers, `using BigInt = cpp_int;` (line 13). -/
abbrev BigInt := Int

/-- A sample point, `pair<BigInt, BigInt>`: `(x, y)`. -/
abbrev Point := BigInt × BigInt

/-- Lines 19-26: the value of `digit` for the character `c`, or `none` when the loop body
executes `continue`. In the "C" locale `isdigit` holds for '0'-'9' and `isalpha` for the
ASCII letters only, which is what `Char.isDigit` and `Char.isAlpha` test. -/
def digitOf (c : Char) : Option Int :=
  if c.isDigit then some ((c.toNat : Int) - ('0'.toNat : Int))
  else if c.isAlpha then some (10 + ((c.toLower.toNat : Int) - ('a'.toNat : Int)))
  else none

/-- Lines 18-28: one round of the loop over the characters of `s`. -/
def digitStep (base : Int) (result : BigInt) (c : Char) : BigInt :=
  match digitOf c with
  | some digit => result * base + digit
  | none => result

/-- Lines 16-30: `BigInt convertToDecimal(const string &s, int base)`. -/
def convertToDecimal (s : String) (base : Int) : BigInt :=
  s.toList.foldl (digitStep base) 0

/-- In-place update `v[a] += d` of a vector. -/
def addAt : List BigInt → Nat → BigInt → List BigInt
  | [], _, _ => []
  | c :: cs, 0, d => (c + d) :: cs
  | c :: cs, a + 1, d => c :: addAt cs a d

/-- Lines 52-57: `new_term`, the product of `term_coeffs` with `(x - xj)`. -/
def mulByLinear (term_coeffs : List BigInt) (xj : BigInt) : List BigInt :=
  (List.range term_coeffs.length).foldl
    (fun new_term a =>
      addAt (addAt new_term a (-xj * term_coeffs.getD a 0)) (a + 1) (term_coeffs.getD a 0))
    (List.replicate (term_coeffs.length + 1) 0)

/-- The read `points[i]`. -/
def pointAt (points : List Point) (i : Nat) : Except Failure Point :=
  match points[i]? with
  | some p => .ok p
  | none => .error .out_of_bounds

/-- Lines 46-59: one round of the inner loop, on the state `(term_coeffs, denom)`. -/
def innerStep (points : List Point) (i : Nat) (xi : BigInt)
    (st : List BigInt × BigInt) (j : Nat) : Except Failure (List BigInt × BigInt) :=
  if i = j then .ok st
  else do
    let pj ← pointAt points j
    .ok (mulByLinear st.1 pj.1, st.2 * (xi - pj.1))

/-- Lines 43-59: `(term_coeffs, denom)` after the inner loop for index `i`. -/
def basisTerm (points : List Point) (k i : Nat) (xi : BigInt) :
    Except Failure (List BigInt × BigInt) :=
  (List.range k).foldlM (innerStep points i xi) ([1], 1)

/-- The `cpp_int` quotient `n / d`. -/
def divide (n d : BigInt) : Except Failure BigInt :=
  if d = 0 then .error .overflow_error else .ok (n.tdiv d)

/-- Line 64: `final_coeffs[a] += term_coeffs[a] * yi / denom`. -/
def accStep (term_coeffs : List BigInt) (yi denom : BigInt) (final_coeffs : List BigInt)
    (a : Nat) : Except Failure (List BigInt) := do
  let q ← divide (term_coeffs.getD a 0 * yi) denom
  if a < final_coeffs.length then .ok (addAt final_coeffs a q) else .error .out_of_bounds

/-- Lines 63-65: the loop adding the scaled term polynomial into `final_coeffs`. -/
def addScaled (final_coeffs term_coeffs : List BigInt) (yi denom : BigInt) :
    Except Failure (List BigInt) :=
  (List.range term_coeffs.length).foldlM (accStep term_coeffs yi denom) final_coeffs

/-- Lines 38-66: one round of the outer loop. -/
def outerStep (points : List Point) (k : Nat) (final_coeffs : List BigInt) (i : Nat) :
    Except Failure (List BigInt) := do
  let p ← pointAt points i
  let t ← basisTerm points k i p.1
  addScaled final_coeffs t.1 p.2 t.2

/-- Lines 34-69: `vector<BigInt> interpolate(const vector<pair<BigInt, BigInt>> &points, int k)`.
With `k` above `INT_MIN`, `m + 1` does not overflow; a negative count makes the vector
constructor throw. -/
def interpolate (points : List Point) (k : Int) : Except Failure (List BigInt) :=
  let m := k - 1
  if m + 1 < 0 then .error .length_error
  else (List.range k.toNat).foldlM (outerStep points k.toNat) (List.replicate (m + 1).toNat 0)

/-! ## Closed forms of the loops -/

/-- The x-coordinate stored at index `j`. -/
def xAt (points : List Point) (j : Nat) : BigInt := (points.getD j (0, 0)).1

/-- The y-coordinate stored at index `j`. -/
def yAt (points : List Point) (j : Nat) : BigInt := (points.getD j (0, 0)).2

/-- The x-coordinates of the points with index below `k` other than index `i`. -/
def otherXs (points : List Point) (k i : Nat) : List BigInt :=
  ((List.range k).filter (fun j => decide (i ≠ j))).map (xAt points)

/-- Closed form of `term_coeffs` after the inner loop for index `i`. -/
def numer (points : List Point) (k i : Nat) : List BigInt :=
  (otherXs points k i).foldl mulByLinear [1]

/-- Closed form of `denom` after the inner loop for index `i`. -/
def denomOf (points : List Point) (k i : Nat) (xi : BigInt) : BigInt :=
  ((otherXs points k i).map (fun xj => xi - xj)).prod

/-- Closed form of `final_coeffs` after the accumulation loop of lines 63-65. -/
def scaledSum (final_coeffs term_coeffs : List BigInt) (yi denom : BigInt) : List BigInt :=
  (List.range term_coeffs.length).foldl
    (fun fc a => addAt fc a ((term_coeffs.getD a 0 * yi).tdiv denom)) final_coeffs

/-- Closed form of `final_coeffs` after the first `n` rounds of the outer loop. -/
def outerSum (points : List Point) (k n : Nat) (init : List BigInt) : List BigInt :=
  (List.range n).foldl
    (fun fc i => scaledSum fc (numer points k i) (yAt points i) (denomOf points k i (xAt points i)))
    init

/-- The term for the point `p` of a list with x-coordinates `xs`, at coefficient index `b`:
the product of the linear factors of the other x-coordinates, scaled by `p.2` and divided by
the product of the differences. -/
def termOf (xs : List BigInt) (b : Nat) (p : Point) : BigInt :=
  (((xs.filter (fun x => decide (x ≠ p.1))).foldl mulByLinear [1]).getD b 0 * p.2).tdiv
    (((xs.filter (fun x => decide (x ≠ p.1))).map (fun xj => p.1 - xj)).prod)

/-! ## Vocabulary of the specification -/

/-- Value at `x` of the polynomial with coefficient list `coeffs`, lowest degree first. -/
def evalPoly (coeffs : List BigInt) (x : BigInt) : BigInt :=
  coeffs.foldr (fun c acc => c + x * acc) 0

/-- The character for digit value `d`: '0'-'9' for 0..9, then 'a'-'z' for 10..35. -/
def digitChar (d : Nat) : Char :=
  if d < 10 then Char.ofNat (48 + d) else Char.ofNat (87 + d)

/-- Standard base-`b` digit string of `n`, most significant digit first. -/
def encode (b n : Nat) : String :=
  if n = 0 then "0" else String.mk ((Nat.digits b n).reverse.map digitChar)

/-- Digit value of a character in the words of the specification: '0'-'9' are 0..9, and the
letters 'a'-'z' and 'A'-'Z' are 10..35; any other character has none. -/
def digitValue (c : Char) : Option Int :=
  if '0' ≤ c ∧ c ≤ '9' then some ((c.toNat : Int) - 48)
  else if 'a' ≤ c ∧ c ≤ 'z' then some ((c.toNat : Int) - 97 + 10)
  else if 'A' ≤ c ∧ c ≤ 'Z' then some ((c.toNat : Int) - 65 + 10)
  else none

/-- The digit values of the alphanumeric characters of `s`, in order. -/
def digitValues (s : String) : List Int := s.toList.filterMap digitValue

/-- Positional value of the digit list `ds` (most significant first) in base `base`. -/
def positional (ds : List Int) (base : Int) : Int :=
  ∑ i in Finset.range ds.length, ds.getD i 0 * base ^ (ds.length - 1 - i)

/-! ## Lemmas about the loops of `interpolate` -/

theorem addAt_length (v : List BigInt) (a : Nat) (d : BigInt) : (addAt v a d).length = v.length := by
  induction v generalizing a with
  | nil => rfl
  | cons c cs ih =>
    cases a with
    | zero => rfl
    | succ a => simp [addAt, ih]

theorem mulByLinear_length (tc : List BigInt) (xj : BigInt) :
    (mulByLinear tc xj).length = tc.length + 1 := by
  unfold mulByLinear
  generalize List.range tc.length = idx
  have key : ∀ (l : List Nat) (init : List BigInt),
      (l.foldl (fun new_term a =>
        addAt (addAt new_term a (-xj * tc.getD a 0)) (a + 1) (tc.getD a 0)) init).length
        = init.length := by
    intro l
    induction l with
    | nil => intro init; rfl
    | cons a l ih => intro init; rw [List.foldl_cons, ih, addAt_length, addAt_length]
  rw [key]; simp

theorem pointAt_of_lt (points : List Point) (i : Nat) (h : i < points.length) :
    pointAt points i = .ok (points.getD i (0, 0)) := by
  simp [pointAt, List.getD, List.getElem?_eq_getElem h]

theorem otherXs_succ (points : List Point) (n i : Nat) :
    otherXs points (n + 1) i =
      if i = n then otherXs points n i else otherXs points n i ++ [xAt points n] := by
  unfold otherXs
  rw [List.range_succ, List.filter_append]
  by_cases h : i = n <;> simp [h]

theorem basisTerm_eq (points : List Point) (k i : Nat) (xi : BigInt) (hk : k ≤ points.length) :
    basisTerm points k i xi = .ok (numer points k i, denomOf points k i xi) := by
  unfold basisTerm
  induction k with
  | zero => rfl
  | succ n ih =>
    rw [List.range_succ, List.foldlM_append, ih (Nat.le_of_succ_le hk)]
    simp only [List.foldlM_cons, List.foldlM_nil, bind, Except.bind, pure, Except.pure]
    unfold innerStep
    by_cases h : i = n
    · simp [h, numer, denomOf, otherXs_succ]
    · simp [h, numer, denomOf, otherXs_succ, pointAt_of_lt points n (by omega), bind, Except.bind,
        xAt, List.foldl_append]

theorem foldl_mulByLinear_length (l : List BigInt) (init : List BigInt) :
    (l.foldl mulByLinear init).length = init.length + l.length := by
  induction l generalizing init with
  | nil => rfl
  | cons x l ih => rw [List.foldl_cons, ih, mulByLinear_length, List.length_cons]; omega

theorem otherXs_length (points : List Point) (k i : Nat) :
    (otherXs points k i).length = if i < k then k - 1 else k := by
  induction k with
  | zero => rfl
  | succ n ih =>
    rw [otherXs_succ]
    by_cases h : i = n
    · subst h; simp [ih]
    · rw [if_neg h, List.length_append, ih]
      by_cases h2 : i < n
      · have h3 : i < n + 1 := by omega
        simp [h2, h3]; omega
      · have h3 : ¬ i < n + 1 := by omega
        simp [h2, h3]

theorem numer_length (points : List Point) (k i : Nat) (hi : i < k) :
    (numer points k i).length = k := by
  unfold numer
  rw [foldl_mulByLinear_length, otherXs_length, if_pos hi]
  simp; omega

theorem scaledSum_length (fc tc : List BigInt) (yi denom : BigInt) :
    (scaledSum fc tc yi denom).length = fc.length := by
  unfold scaledSum
  generalize List.range tc.length = idx
  induction idx generalizing fc with
  | nil => rfl
  | cons a l ih => rw [List.foldl_cons, ih, addAt_length]

theorem addScaled_of_ne_zero (fc tc : List BigInt) (yi denom : BigInt)
    (hd : denom ≠ 0) (hlen : tc.length ≤ fc.length) :
    addScaled fc tc yi denom = .ok (scaledSum fc tc yi denom) := by
  unfold addScaled scaledSum
  have key : ∀ (l : List Nat) (fc : List BigInt), (∀ a ∈ l, a < fc.length) →
      l.foldlM (accStep tc yi denom) fc
        = Except.ok (l.foldl (fun fc a => addAt fc a ((tc.getD a 0 * yi).tdiv denom)) fc) := by
    intro l
    induction l with
    | nil => intro fc _; rfl
    | cons a l ih =>
      intro fc h
      have ha : a < fc.length := h a (List.mem_cons_self a l)
      have hstep : accStep tc yi denom fc a
          = Except.ok (addAt fc a ((tc.getD a 0 * yi).tdiv denom)) := by
        simp only [accStep, divide, if_neg hd, bind, Except.bind, if_pos ha]
      rw [List.foldlM_cons, List.foldl_cons, hstep]
      simp only [bind, Except.bind]
      apply ih
      intro b hb
      rw [addAt_length]
      exact h b (List.mem_cons_of_mem a hb)
  apply key
  intro a ha
  have := List.mem_range.mp ha
  omega

theorem addScaled_of_zero (fc tc : List BigInt) (yi : BigInt) (htc : 0 < tc.length) :
    addScaled fc tc yi 0 = .error .overflow_error := by
  unfold addScaled
  obtain ⟨n, hn⟩ : ∃ n, tc.length = n + 1 := ⟨tc.length - 1, by omega⟩
  rw [hn, List.range_succ_eq_map, List.foldlM_cons]
  simp [accStep, divide, bind, Except.bind]

theorem outerStep_eq (points : List Point) (k i : Nat) (fc : List BigInt)
    (hi : i < k) (hk : k ≤ points.length) (hfc : fc.length = k) :
    outerStep points k fc i =
      if denomOf points k i (xAt points i) = 0 then .error .overflow_error
      else .ok (scaledSum fc (numer points k i) (yAt points i) (denomOf points k i (xAt points i))) := by
  unfold outerStep
  rw [pointAt_of_lt points i (by omega)]
  simp only [bind, Except.bind]
  rw [basisTerm_eq points k i _ hk]
  simp only []
  by_cases hd : denomOf points k i (xAt points i) = 0
  · rw [if_pos hd]
    have h := addScaled_of_zero fc (numer points k i) (yAt points i)
      (by rw [numer_length points k i hi]; omega)
    show addScaled fc (numer points k i) (yAt points i) (denomOf points k i (xAt points i)) = _
    rw [hd]; exact h
  · rw [if_neg hd]
    exact addScaled_of_ne_zero fc (numer points k i) _ _ hd
      (by rw [numer_length points k i hi, hfc])

theorem outerSum_succ (points : List Point) (k n : Nat) (init : List BigInt) :
    outerSum points k (n + 1) init =
      scaledSum (outerSum points k n init) (numer points k n) (yAt points n)
        (denomOf points k n (xAt points n)) := by
  simp [outerSum, List.range_succ, List.foldl_append]

theorem outerSum_length (points : List Point) (k n : Nat) (init : List BigInt) :
    (outerSum points k n init).length = init.length := by
  induction n with
  | zero => rfl
  | succ n ih => rw [outerSum_succ, scaledSum_length, ih]

theorem outerLoop_ok (points : List Point) (k : Nat) (init : List BigInt)
    (hk : k ≤ points.length) (hinit : init.length = k) (n : Nat) (hn : n ≤ k)
    (hd : ∀ i, i < n → denomOf points k i (xAt points i) ≠ 0) :
    (List.range n).foldlM (outerStep points k) init = .ok (outerSum points k n init) := by
  induction n with
  | zero => rfl
  | succ n ih =>
    rw [List.range_succ, List.foldlM_append,
      ih (by omega) (fun i hi => hd i (by omega))]
    simp only [List.foldlM_cons, List.foldlM_nil, bind, Except.bind, pure, Except.pure]
    rw [outerStep_eq points k n _ (by omega) hk (by rw [outerSum_length, hinit]),
      if_neg (hd n (by omega)), outerSum_succ]

theorem outerLoop_zero_denom (points : List Point) (k : Nat) (init : List BigInt)
    (hk : k ≤ points.length) (hinit : init.length = k) (n : Nat) (hn : n ≤ k)
    (hd : ∃ i, i < n ∧ denomOf points k i (xAt points i) = 0) :
    (List.range n).foldlM (outerStep points k) init = .error .overflow_error := by
  induction n with
  | zero => obtain ⟨i, hi, _⟩ := hd; omega
  | succ n ih =>
    rw [List.range_succ, List.foldlM_append]
    by_cases hprev : ∃ i, i < n ∧ denomOf points k i (xAt points i) = 0
    · rw [ih (by omega) hprev]; rfl
    · have hall : ∀ i, i < n → denomOf points k i (xAt points i) ≠ 0 :=
        fun i hi h0 => hprev ⟨i, hi, h0⟩
      obtain ⟨i, hi, h0⟩ := hd
      have hin : i = n := by
        rcases Nat.lt_succ_iff_lt_or_eq.mp hi with h | h
        · exact absurd h0 (hall i h)
        · exact h
      subst hin
      rw [outerLoop_ok points k init hk hinit i (by omega) hall]
      simp only [List.foldlM_cons, List.foldlM_nil, bind, Except.bind, pure, Except.pure]
      rw [outerStep_eq points k i _ (by omega) hk (by rw [outerSum_length, hinit]), if_pos h0]

theorem interpolate_natCast (points : List Point) (k : Nat) :
    interpolate points (k : Int) =
      (List.range k).foldlM (outerStep points k) (List.replicate k 0) := by
  simp [interpolate]

theorem mem_otherXs (points : List Point) (k i : Nat) (x : BigInt) :
    x ∈ otherXs points k i ↔ ∃ j, j < k ∧ j ≠ i ∧ xAt points j = x := by
  simp only [otherXs, List.mem_map, List.mem_filter, List.mem_range, decide_eq_true_eq]
  constructor
  · rintro ⟨j, ⟨hj, hne⟩, rfl⟩; exact ⟨j, hj, fun h => hne h.symm, rfl⟩
  · rintro ⟨j, hj, hne, rfl⟩; exact ⟨j, ⟨hj, fun h => hne h.symm⟩, rfl⟩

theorem denomOf_eq_zero_iff (points : List Point) (k i : Nat) (xi : BigInt) :
    denomOf points k i xi = 0 ↔ ∃ j, j < k ∧ j ≠ i ∧ xAt points j = xi := by
  unfold denomOf
  rw [List.prod_eq_zero_iff, List.mem_map]
  constructor
  · rintro ⟨x, hx, h0⟩
    obtain ⟨j, hj, hne, rfl⟩ := (mem_otherXs points k i x).mp hx
    exact ⟨j, hj, hne, (sub_eq_zero.mp h0).symm⟩
  · rintro ⟨j, hj, hne, h⟩
    exact ⟨xAt points j, (mem_otherXs points k i _).mpr ⟨j, hj, hne, rfl⟩, sub_eq_zero.mpr h.symm⟩

theorem xAt_ne_of_nodup (points : List Point) (k : Nat) (hk : k ≤ points.length)
    (hx : ((points.take k).map Prod.fst).Nodup) (i j : Nat) (hi : i < k) (hj : j < k)
    (hne : j ≠ i) : xAt points j ≠ xAt points i := by
  have hlen : ((points.take k).map Prod.fst).length = k := by simp [hk]
  have hget : ∀ a, a < k → ((points.take k).map Prod.fst)[a]? = some (xAt points a) := by
    intro a ha
    have h1 : a < points.length := by omega
    simp [xAt, List.getD, List.getElem?_eq_getElem h1, List.getElem?_take, ha]
  have hpair := List.nodup_iff_getElem?_ne_getElem?.mp hx
  intro h
  rcases Nat.lt_or_gt_of_ne hne with hlt | hgt
  · apply hpair j i hlt (by omega)
    rw [hget j hj, hget i hi, h]
  · apply hpair i j hgt (by omega)
    rw [hget j hj, hget i hi, h]

theorem denomOf_ne_zero_of_nodup (points : List Point) (k : Nat) (hk : k ≤ points.length)
    (hx : ((points.take k).map Prod.fst).Nodup) (i : Nat) (hi : i < k) :
    denomOf points k i (xAt points i) ≠ 0 := by
  intro h0
  obtain ⟨j, hj, hne, h⟩ := (denomOf_eq_zero_iff points k i _).mp h0
  exact xAt_ne_of_nodup points k hk hx i j hi hj hne h

theorem interpolate_of_nodup (points : List Point) (k : Nat) (hk : k ≤ points.length)
    (hx : ((points.take k).map Prod.fst).Nodup) :
    interpolate points (k : Int) = .ok (outerSum points k k (List.replicate k 0)) := by
  rw [interpolate_natCast]
  exact outerLoop_ok points k _ hk (by simp) k (Nat.le_refl k)
    (fun i hi => denomOf_ne_zero_of_nodup points k hk hx i hi)

theorem interpolate_of_dup (points : List Point) (k : Nat) (hk : k ≤ points.length)
    (i j : Nat) (hi : i < k) (hj : j < k) (hne : j ≠ i) (h : xAt points j = xAt points i) :
    interpolate points (k : Int) = .error .overflow_error := by
  rw [interpolate_natCast]
  exact outerLoop_zero_denom points k _ hk (by simp) k (Nat.le_refl k)
    ⟨i, hi, (denomOf_eq_zero_iff points k i _).mpr ⟨j, hj, hne, h⟩⟩

theorem interpolate_neg (points : List Point) (k : Int) (hk : k < 0) :
    interpolate points k = .error .length_error := by
  have h : k - 1 + 1 < 0 := by omega
  unfold interpolate
  simp only []
  rw [if_pos h]

/-! ## Lemmas about the loop of `convertToDecimal` -/

theorem toLower_toNat_of_upper (c : Char) (h1 : 65 ≤ c.toNat) (h2 : c.toNat ≤ 90) :
    c.toLower.toNat = c.toNat + 32 := by
  have hc : c = Char.ofNat c.toNat := (Char.ofNat_toNat c).symm
  generalize c.toNat = n at *
  subst hc
  interval_cases n <;> rfl

theorem toLower_of_not_upper (c : Char) (h : ¬ (65 ≤ c.toNat ∧ c.toNat ≤ 90)) :
    c.toLower = c := by
  have h1 : (c.val ≥ 65) ↔ 65 ≤ c.toNat := Iff.rfl
  have h2 : (c.val ≤ 90) ↔ c.toNat ≤ 90 := Iff.rfl
  simp only [Char.toLower, h1, h2, if_neg h]

theorem digitOf_eq_digitValue (c : Char) : digitOf c = digitValue c := by
  unfold digitOf digitValue
  have hle : ∀ a b : Char, a ≤ b ↔ a.toNat ≤ b.toNat := fun a b => Iff.rfl
  have hge : ∀ n : UInt32, (c.val ≥ n) ↔ n.toNat ≤ c.toNat := fun n => Iff.rfl
  have hle2 : ∀ n : UInt32, (c.val ≤ n) ↔ c.toNat ≤ n.toNat := fun n => Iff.rfl
  simp only [Char.isDigit, Char.isAlpha, Char.isUpper, Char.isLower, hle, hge, hle2,
    Bool.and_eq_true, Bool.or_eq_true, decide_eq_true_eq]
  have e0 : '0'.toNat = 48 := rfl
  have e9 : '9'.toNat = 57 := rfl
  have ea : 'a'.toNat = 97 := rfl
  have ez : 'z'.toNat = 122 := rfl
  have eA : 'A'.toNat = 65 := rfl
  have eZ : 'Z'.toNat = 90 := rfl
  have u48 : (48 : UInt32).toNat = 48 := rfl
  have u57 : (57 : UInt32).toNat = 57 := rfl
  have u65 : (65 : UInt32).toNat = 65 := rfl
  have u90 : (90 : UInt32).toNat = 90 := rfl
  have u97 : (97 : UInt32).toNat = 97 := rfl
  have u122 : (122 : UInt32).toNat = 122 := rfl
  rw [e0, e9, ea, ez, eA, eZ, u48, u57, u65, u90, u97, u122]
  by_cases hd : 48 ≤ c.toNat ∧ c.toNat ≤ 57
  · simp only [if_pos hd]; rfl
  · simp only [if_neg hd]
    by_cases hl : 97 ≤ c.toNat ∧ c.toNat ≤ 122
    · have hnu : ¬ (65 ≤ c.toNat ∧ c.toNat ≤ 90) := by omega
      rw [if_pos (Or.inr hl), if_pos hl, toLower_of_not_upper c hnu]
      congr 1; push_cast; ring
    · rw [if_neg hl]
      by_cases hu : 65 ≤ c.toNat ∧ c.toNat ≤ 90
      · rw [if_pos (Or.inl hu), if_pos hu, toLower_toNat_of_upper c hu.1 hu.2]
        congr 1; push_cast; ring
      · rw [if_neg hu, if_neg (by tauto)]
theorem digitOf_digitChar (d : Nat) (h : d < 36) : digitOf (digitChar d) = some (d : Int) := by
  interval_cases d <;> rfl

theorem foldl_digitStep_digitChar (b : Nat) (ds : List Nat) (hds : ∀ d ∈ ds, d < 36) (acc : Nat) :
    (ds.map digitChar).foldl (digitStep (b : Int)) (acc : Int)
      = ((ds.foldl (fun r d => r * b + d) acc : Nat) : Int) := by
  induction ds generalizing acc with
  | nil => rfl
  | cons d ds ih =>
    have hd : d < 36 := hds d (List.mem_cons_self d ds)
    rw [List.map_cons, List.foldl_cons, List.foldl_cons]
    have : digitStep (b : Int) (acc : Int) (digitChar d) = ((acc * b + d : Nat) : Int) := by
      simp [digitStep, digitOf_digitChar d hd]
    rw [this]
    exact ih (fun x hx => hds x (List.mem_cons_of_mem d hx)) _

theorem foldl_reverse_eq_ofDigits (b : Nat) (L : List Nat) :
    L.reverse.foldl (fun r d => r * b + d) 0 = Nat.ofDigits b L := by
  induction L with
  | nil => rfl
  | cons d L ih =>
    rw [List.reverse_cons, List.foldl_append, ih, Nat.ofDigits_cons]
    simp [List.foldl]; ring

theorem foldl_digitStep_positional (base : Int) (l : List Char) (acc : Int) :
    l.foldl (digitStep base) acc
      = acc * base ^ (l.filterMap digitOf).length + positional (l.filterMap digitOf) base := by
  induction l generalizing acc with
  | nil => simp [positional]
  | cons c l ih =>
    rw [List.foldl_cons, ih]
    cases hc : digitOf c with
    | none => simp [digitStep, hc, List.filterMap_cons]
    | some d =>
      simp only [digitStep, hc, List.filterMap_cons]
      generalize l.filterMap digitOf = ds
      unfold positional
      rw [List.length_cons, Finset.sum_range_succ']
      have hsum : ∑ i in Finset.range ds.length,
            (d :: ds).getD (i + 1) 0 * base ^ (ds.length + 1 - 1 - (i + 1))
          = ∑ i in Finset.range ds.length, ds.getD i 0 * base ^ (ds.length - 1 - i) := by
        apply Finset.sum_congr rfl
        intro i _
        rw [List.getD_cons_succ]
        congr 2
        omega
      rw [hsum]
      simp only [List.getD_cons_zero, Nat.add_sub_cancel, Nat.sub_zero, pow_succ]
      ring

/-! ## Settled properties of `interpolate` -/

/-- C1, the code at a failing input: the points (1,1), (2,2), (3,3) are the samples of the
polynomial with coefficients [0, 1, 0] at the three distinct x-coordinates 1, 2, 3, yet
`interpolate` with k = 3 returns [0, 2, -1] and not [0, 1, 0]: the quotients -5/2 and -9/2 of
the per-term divisions are truncated. -/
theorem interpolate_exact_recovery_fails :
    [(1, evalPoly [0, 1, 0] 1), (2, evalPoly [0, 1, 0] 2), (3, evalPoly [0, 1, 0] 3)]
        = [((1 : BigInt), (1 : BigInt)), (2, 2), (3, 3)] ∧
      interpolate [(1, 1), (2, 2), (3, 3)] 3 = .ok [0, 2, -1] ∧
      interpolate [(1, 1), (2, 2), (3, 3)] 3 ≠ .ok [0, 1, 0] := by
  decide

/-- C2 as stated fails: on the points (1,0), (3,1) with k = 2 the inner loop for index 1 leaves
term_coeffs = [-1, 1] and denom = 2, the division (-1 * 1) / 2 has remainder -1, and
`interpolate` returns the coefficient vector [0, 0] instead of failing with
`InexactDivisionError`. -/
theorem interpolate_inexact_division_returns :
    basisTerm [(1, 0), (3, 1)] 2 1 3 = .ok ([-1, 1], 2) ∧
      Int.tmod (-1 * 1) 2 ≠ 0 ∧
      interpolate [(1, 0), (3, 1)] 2 = .ok [0, 0] ∧
      interpolate [(1, 0), (3, 1)] 2 ≠ .error .InexactDivisionError := by
  decide

/-- C2 amended: for k points with pairwise-distinct x-coordinates (k ≥ 1), whenever some
division term_coeffs[a] * y_i / denom performed by `interpolate` leaves a nonzero remainder,
`interpolate` still returns a coefficient vector; it does not fail. -/
theorem interpolate_returns_despite_remainder (k : Nat) (points : List Point)
    (hlen : points.length = k) (hx : (points.map Prod.fst).Nodup)
    (_hrem : ∃ i a tc d, i < k ∧ a < k ∧
      basisTerm points k i (points.getD i (0, 0)).1 = .ok (tc, d) ∧
      (tc.getD a 0 * (points.getD i (0, 0)).2).tmod d ≠ 0) :
    ∃ v, interpolate points (k : Int) = .ok v :=
  ⟨_, interpolate_of_nodup points k (Nat.le_of_eq hlen.symm)
    (by rw [← hlen, List.take_length]; exact hx)⟩

/-- Witness for `interpolate_returns_despite_remainder`: the points (1,0), (3,1), where the
division for i = 1, a = 0 has remainder -1. -/
theorem interpolate_returns_despite_remainder_witness :
    ([((1 : BigInt), (0 : BigInt)), (3, 1)].length = 2 ∧
      ([((1 : BigInt), (0 : BigInt)), (3, 1)].map Prod.fst).Nodup ∧
      basisTerm [(1, 0), (3, 1)] 2 1 3 = .ok ([-1, 1], 2) ∧ Int.tmod (-1 * 1) 2 ≠ 0) ∧
      ∃ v, interpolate [(1, 0), (3, 1)] ((2 : Nat) : Int) = .ok v :=
  ⟨by decide,
    interpolate_returns_despite_remainder 2 [(1, 0), (3, 1)] rfl (by decide)
      ⟨1, 0, [-1, 1], 2, by decide, by decide, by decide, by decide⟩⟩

/-- C3 as stated fails: on the points (1,4), (2,7), (3,12) with k = 3, `interpolate` does not
return [1, 2, 1]; that polynomial takes the value 9, not 7, at x = 2. -/
theorem interpolate_scenario_not_1_2_1 :
    interpolate [(1, 4), (2, 7), (3, 12)] 3 ≠ .ok [1, 2, 1] ∧ evalPoly [1, 2, 1] 2 = 9 := by
  decide

/-- C3 amended: on the points (1,4), (2,7), (3,12) with k = 3, `interpolate` returns the
coefficient vector [3, 0, 1] of the polynomial x^2 + 3, which passes through the three points;
the secret coeff[0] is 3. -/
theorem interpolate_scenario :
    interpolate [(1, 4), (2, 7), (3, 12)] 3 = .ok [3, 0, 1] ∧
      evalPoly [3, 0, 1] 1 = 4 ∧ evalPoly [3, 0, 1] 2 = 7 ∧ evalPoly [3, 0, 1] 3 = 12 ∧
      evalPoly [3, 0, 1] 0 = 3 := by
  decide

/-- C4: for all integers x and y, `interpolate` on the single point (x, y) with k = 1 returns
[y]; the inner loop leaves term_coeffs = [1] and the denominator 1, the empty product. In
particular the point (1, 42) gives [42]. -/
theorem interpolate_single_point (x y : BigInt) :
    interpolate [(x, y)] 1 = .ok [y] ∧
      basisTerm [(x, y)] 1 0 x = .ok ([1], 1) ∧
      interpolate [(1, 42)] 1 = .ok [42] := by
  refine ⟨?_, ?_, by decide⟩
  · simp [interpolate, List.range, List.range.loop, outerStep, pointAt, basisTerm, innerStep,
      addScaled, accStep, divide, addAt, bind, Except.bind, pure, Except.pure]
  · rfl

/-- C5 as stated fails: the points (1,10), (1,20) have equal x and differing y, and
`interpolate` with k = 2 fails with the division by zero of the big-integer library, not with
`DuplicateXCoordinateError`. -/
theorem interpolate_duplicate_divides_by_zero :
    interpolate [(1, 10), (1, 20)] 2 = .error .overflow_error ∧
      interpolate [(1, 10), (1, 20)] 2 ≠ .error .DuplicateXCoordinateError := by
  decide

/-- C5 amended: for every point list with at least k points in which two of the first k points
have equal x (whether or not their y differ), `interpolate` returns no coefficient vector: it
fails with the division by zero raised by the big-integer division. -/
theorem interpolate_duplicate_x (k : Nat) (points : List Point) (i j : Nat)
    (hk : k ≤ points.length) (hij : i < j) (hj : j < k)
    (hx : (points.getD i (0, 0)).1 = (points.getD j (0, 0)).1) :
    interpolate points (k : Int) = .error .overflow_error :=
  interpolate_of_dup points k hk i j (by omega) hj (by omega) hx.symm

/-- Witness for `interpolate_duplicate_x`: the points (1,10), (2,5), (1,20) with k = 3. -/
theorem interpolate_duplicate_x_witness :
    (3 ≤ [((1 : BigInt), (10 : BigInt)), (2, 5), (1, 20)].length ∧ 0 < 2 ∧ 2 < 3 ∧
      ([((1 : BigInt), (10 : BigInt)), (2, 5), (1, 20)].getD 0 (0, 0)).1
        = ([((1 : BigInt), (10 : BigInt)), (2, 5), (1, 20)].getD 2 (0, 0)).1) ∧
      interpolate [(1, 10), (2, 5), (1, 20)] ((3 : Nat) : Int) = .error .overflow_error :=
  ⟨by decide,
    interpolate_duplicate_x 3 [(1, 10), (2, 5), (1, 20)] 0 2 (by decide) (by decide) (by decide)
      (by decide)⟩

/-- C6 as stated fails: with k = 0 `interpolate` returns the empty coefficient vector; it does
not fail with `InvalidThresholdError`. -/
theorem interpolate_zero_threshold_returns :
    interpolate [(1, 42)] 0 = .ok [] ∧
      interpolate [(1, 42)] 0 ≠ .error .InvalidThresholdError := by
  decide

/-- C6 amended: for every point list, `interpolate` called with k = 0 returns the empty
coefficient vector and no error; called with a negative k (above INT_MIN) it returns no
coefficient vector, the construction of the result vector failing with a length error. -/
theorem interpolate_threshold_below_one (points : List Point) :
    interpolate points 0 = .ok [] ∧
      ∀ k : Int, -2 ^ 31 < k → k < 0 → interpolate points k = .error .length_error :=
  ⟨rfl, fun k _ hk => interpolate_neg points k hk⟩

/-- Witness for `interpolate_threshold_below_one`: the point list [(1, 42)] with k = 0 and
k = -1. -/
theorem interpolate_threshold_below_one_witness :
    ((-2 : Int) ^ 31 < -1 ∧ (-1 : Int) < 0) ∧
      interpolate [(1, 42)] 0 = .ok [] ∧ interpolate [(1, 42)] (-1) = .error .length_error :=
  ⟨by decide, (interpolate_threshold_below_one [(1, 42)]).1,
    (interpolate_threshold_below_one [(1, 42)]).2 (-1) (by decide) (by decide)⟩

/-- C7 as stated fails: the list (1,5), (2,7) has length 2, which differs from k = 1, and
`interpolate` returns [5] instead of failing with `InvalidThresholdError`. -/
theorem interpolate_longer_list_returns :
    [((1 : BigInt), (5 : BigInt)), (2, 7)].length ≠ 1 ∧
      interpolate [(1, 5), (2, 7)] 1 = .ok [5] ∧
      interpolate [(1, 5), (2, 7)] 1 ≠ .error .InvalidThresholdError := by
  decide

/-- C7 amended: `interpolate` makes no comparison of the point count with k. For k ≥ 1, and
indeed for every k, on a point list whose length differs from k by being longer, with
pairwise-distinct x-coordinates among its first k points, `interpolate` does not fail: it
returns a coefficient vector of length k. -/
theorem interpolate_length_mismatch (k : Nat) (points : List Point)
    (hlen : k < points.length) (hx : ((points.take k).map Prod.fst).Nodup) :
    points.length ≠ k ∧ ∃ v, interpolate points (k : Int) = .ok v ∧ v.length = k :=
  ⟨by omega, _, interpolate_of_nodup points k (Nat.le_of_lt hlen) hx, by
    rw [outerSum_length, List.length_replicate]⟩

/-- Witness for `interpolate_length_mismatch`: k = 2 on the three points (1,1), (2,4),
(3,9). -/
theorem interpolate_length_mismatch_witness :
    (2 < [((1 : BigInt), (1 : BigInt)), (2, 4), (3, 9)].length ∧
      (([((1 : BigInt), (1 : BigInt)), (2, 4), (3, 9)].take 2).map Prod.fst).Nodup) ∧
      [((1 : BigInt), (1 : BigInt)), (2, 4), (3, 9)].length ≠ 2 ∧
      ∃ v, interpolate [(1, 1), (2, 4), (3, 9)] ((2 : Nat) : Int) = .ok v ∧ v.length = 2 :=
  ⟨by decide,
    interpolate_length_mismatch 2 [(1, 1), (2, 4), (3, 9)] (by decide) (by decide)⟩

/-- C8: for every k (in particular every k ≥ 1) and every list of k points with
pairwise-distinct x-coordinates, `interpolate` returns a coefficient vector, and its length is
exactly k. -/
theorem interpolate_result_length (k : Nat) (points : List Point)
    (hlen : points.length = k) (hx : (points.map Prod.fst).Nodup) :
    ∃ v, interpolate points (k : Int) = .ok v ∧ v.length = k :=
  ⟨_, interpolate_of_nodup points k (Nat.le_of_eq hlen.symm)
      (by rw [← hlen, List.take_length]; exact hx),
    by rw [outerSum_length, List.length_replicate]⟩

/-- Witness for `interpolate_result_length`: the three points (1,4), (2,7), (3,12). -/
theorem interpolate_result_length_witness :
    ([((1 : BigInt), (4 : BigInt)), (2, 7), (3, 12)].length = 3 ∧
      ([((1 : BigInt), (4 : BigInt)), (2, 7), (3, 12)].map Prod.fst).Nodup) ∧
      ∃ v, interpolate [(1, 4), (2, 7), (3, 12)] ((3 : Nat) : Int) = .ok v ∧ v.length = 3 :=
  ⟨by decide,
    interpolate_result_length 3 [(1, 4), (2, 7), (3, 12)] rfl (by decide)⟩

/-! ## Settled properties of `convertToDecimal` -/

/-- C9: for every base b with 2 ≤ b ≤ 36 and every natural number n, `convertToDecimal`
applied to the standard base-b digit string of n (digits '0'-'9' then 'a'-'z', most
significant first) and b returns n. -/
theorem convertToDecimal_encode (b n : Nat) (hb : 2 ≤ b) (hb36 : b ≤ 36) :
    convertToDecimal (encode b n) (b : Int) = (n : Int) := by
  unfold encode
  by_cases hn : n = 0
  · subst hn; simp [convertToDecimal, digitStep, digitOf]
  · rw [if_neg hn]
    show ((Nat.digits b n).reverse.map digitChar).foldl (digitStep (b : Int)) ((0 : Nat) : Int) = _
    rw [foldl_digitStep_digitChar, foldl_reverse_eq_ofDigits, Nat.ofDigits_digits]
    intro d hd
    have := Nat.digits_lt_base (by omega) (List.mem_reverse.mp hd)
    omega

/-- Witness for `convertToDecimal_encode`: 255 in base 16, whose digit string is "ff". -/
theorem convertToDecimal_encode_witness :
    (2 ≤ 16 ∧ 16 ≤ 36 ∧ encode 16 255 = "ff") ∧
      convertToDecimal (encode 16 255) ((16 : Nat) : Int) = ((255 : Nat) : Int) :=
  ⟨⟨by decide, by decide, by simp [encode, digitChar]⟩,
    convertToDecimal_encode 16 255 (by decide) (by decide)⟩

/-- C10: for every base and every string s whose alphanumeric characters have the digit values
d_1..d_n in order, `convertToDecimal` of s equals the sum over i of d_i * base^(n-i) (written
with indices from 0), and is 0 when n = 0; the characters '0'-'9' have the values 0..9 and the
letters the values 10..35; `convertToDecimal` of "ff" in base 16 is 255 and of "111" in base 2
is 7. -/
theorem convertToDecimal_positional (s : String) (base : Int) :
    convertToDecimal s base
        = ∑ i in Finset.range (digitValues s).length,
            (digitValues s).getD i 0 * base ^ ((digitValues s).length - 1 - i) ∧
      ((digitValues s).length = 0 → convertToDecimal s base = 0) ∧
      digitValues "09azAZ" = [0, 9, 10, 35, 10, 35] ∧
      convertToDecimal "ff" 16 = 255 ∧ convertToDecimal "111" 2 = 7 := by
  have hpos : convertToDecimal s base = positional (digitValues s) base := by
    unfold convertToDecimal digitValues
    rw [foldl_digitStep_positional, funext digitOf_eq_digitValue]
    simp
  refine ⟨hpos, ?_, by decide, by decide, by decide⟩
  intro h0
  rw [hpos, positional, h0]
  simp

/-! ## Coefficients computed by the loops -/

theorem addAt_getD (v : List BigInt) (a b : Nat) (d : BigInt) :
    (addAt v a d).getD b 0 = if a = b ∧ b < v.length then v.getD b 0 + d else v.getD b 0 := by
  induction v generalizing a b with
  | nil => simp [addAt]
  | cons c cs ih =>
    cases a with
    | zero =>
      cases b with
      | zero => simp [addAt]
      | succ b => simp [addAt]
    | succ a =>
      cases b with
      | zero => simp [addAt]
      | succ b =>
        simp only [addAt, List.getD_cons_succ, ih, List.length_cons]
        by_cases h : a = b ∧ b < cs.length
        · rw [if_pos h, if_pos ⟨by omega, by omega⟩]
        · rw [if_neg h, if_neg (by omega)]

theorem getD_replicate_zero (n b : Nat) : (List.replicate n (0 : BigInt)).getD b 0 = 0 := by
  by_cases h : b < n
  · rw [List.getD_eq_getElem _ _ (by simpa using h)]; simp
  · rw [List.getD_eq_default _ _ (by simpa using h)]

theorem addAt_addAt_getD (S : List BigInt) (n b : Nat) (u w : BigInt) (hn : n + 1 < S.length) :
    (addAt (addAt S n u) (n + 1) w).getD b 0
      = S.getD b 0 + (if b = n then u else 0) + (if b = n + 1 then w else 0) := by
  rw [addAt_getD, addAt_getD, addAt_length]
  by_cases h1 : b = n
  · subst h1
    have e1 : ¬ (b + 1 = b ∧ b < S.length) := by omega
    have e2 : (b = b ∧ b < S.length) := ⟨rfl, by omega⟩
    have e3 : b ≠ b + 1 := by omega
    rw [if_neg e1, if_pos e2, if_neg e3, if_pos rfl]
    ring
  · by_cases h2 : b = n + 1
    · subst h2
      have e1 : (n + 1 = n + 1 ∧ n + 1 < S.length) := ⟨rfl, hn⟩
      have e2 : ¬ (n = n + 1 ∧ n + 1 < S.length) := by omega
      rw [if_pos e1, if_neg e2, if_neg h1, if_pos rfl]
      ring
    · have e1 : ¬ (n + 1 = b ∧ b < S.length) := by omega
      have e2 : ¬ (n = b ∧ b < S.length) := by omega
      simp only [if_neg e1, if_neg e2, if_neg h1, if_neg h2]
      ring

theorem mulByLinear_loop (c : List BigInt) (x : BigInt) (n : Nat) (hn : n ≤ c.length) (b : Nat) :
    (((List.range n).foldl
        (fun new_term a =>
          addAt (addAt new_term a (-x * c.getD a 0)) (a + 1) (c.getD a 0))
        (List.replicate (c.length + 1) 0)).length = c.length + 1) ∧
      ((List.range n).foldl
        (fun new_term a =>
          addAt (addAt new_term a (-x * c.getD a 0)) (a + 1) (c.getD a 0))
        (List.replicate (c.length + 1) 0)).getD b 0
        = (if b < n then -x * c.getD b 0 else 0)
          + (if 1 ≤ b ∧ b ≤ n then c.getD (b - 1) 0 else 0) := by
  induction n with
  | zero =>
    refine ⟨by simp, ?_⟩
    have e1 : ¬ b < 0 := by omega
    have e2 : ¬ (1 ≤ b ∧ b ≤ 0) := by omega
    rw [List.range_zero, List.foldl_nil, getD_replicate_zero]
    simp only [if_neg e1, if_neg e2]
    rfl
  | succ n ih =>
    obtain ⟨hlen, hb⟩ := ih (by omega)
    rw [List.range_succ, List.foldl_append, List.foldl_cons, List.foldl_nil]
    refine ⟨by rw [addAt_length, addAt_length, hlen], ?_⟩
    rw [addAt_addAt_getD _ _ _ _ _ (by rw [hlen]; omega), hb]
    rcases Nat.lt_trichotomy b n with h | h | h
    · have e1 : b < n + 1 := by omega
      have e2 : b ≠ n := by omega
      have e3 : b ≠ n + 1 := by omega
      have e4 : (1 ≤ b ∧ b ≤ n + 1) ↔ (1 ≤ b ∧ b ≤ n) := by omega
      simp only [if_pos h, if_pos e1, if_neg e2, if_neg e3, e4]
      ring
    · subst h
      have e1 : ¬ b < b := by omega
      have e2 : b < b + 1 := by omega
      have e3 : b ≠ b + 1 := by omega
      have e4 : (1 ≤ b ∧ b ≤ b + 1) ↔ (1 ≤ b ∧ b ≤ b) := by omega
      simp only [if_neg e1, if_pos e2, if_neg e3, e4, if_true]
      ring
    · have e1 : ¬ b < n := by omega
      have e2 : b ≠ n := by omega
      have e5 : ¬ (1 ≤ b ∧ b ≤ n) := by omega
      simp only [if_neg e1, if_neg e2, if_neg e5]
      by_cases h2 : b = n + 1
      · subst h2
        have e6 : ¬ (n + 1 < n + 1) := by omega
        have e7 : (1 ≤ n + 1 ∧ n + 1 ≤ n + 1) := by omega
        simp only [if_neg e6, if_pos e7, if_true, Nat.add_sub_cancel]
        ring
      · have e6 : ¬ (b < n + 1) := by omega
        have e7 : ¬ (1 ≤ b ∧ b ≤ n + 1) := by omega
        simp only [if_neg e6, if_neg e7, if_neg h2]
        ring

theorem mulByLinear_getD (c : List BigInt) (x : BigInt) (b : Nat) :
    (mulByLinear c x).getD b 0 = (if b = 0 then 0 else c.getD (b - 1) 0) - x * c.getD b 0 := by
  unfold mulByLinear
  rw [(mulByLinear_loop c x c.length (Nat.le_refl _) b).2]
  by_cases hb : b < c.length
  · have e1 : (1 ≤ b ∧ b ≤ c.length) ↔ ¬ b = 0 := by omega
    simp only [if_pos hb, e1, ite_not]
    ring
  · have e0 : c.getD b 0 = 0 := List.getD_eq_default c 0 (by omega)
    simp only [if_neg hb, e0]
    by_cases h1 : b = c.length
    · have e1 : (1 ≤ b ∧ b ≤ c.length) ↔ ¬ b = 0 := by omega
      simp only [e1, ite_not]
      ring
    · have e1 : ¬ (1 ≤ b ∧ b ≤ c.length) := by omega
      have e2 : b ≠ 0 := by omega
      have e3 : c.getD (b - 1) 0 = 0 := List.getD_eq_default c 0 (by omega)
      simp only [if_neg e1, if_neg e2, e3]
      ring

theorem coeff_listPoly (c : List BigInt) (b : Nat) :
    (∑ a in Finset.range c.length, Polynomial.monomial a (c.getD a 0) : Polynomial ℤ).coeff b
      = c.getD b 0 := by
  rw [Polynomial.finset_sum_coeff]
  simp only [Polynomial.coeff_monomial]
  rw [Finset.sum_ite_eq']
  by_cases hb : b < c.length
  · rw [if_pos (Finset.mem_range.mpr hb)]
  · rw [if_neg (by simpa using hb), List.getD_eq_default c 0 (by omega)]

theorem listPoly_mulByLinear (c : List BigInt) (x : BigInt) :
    (∑ a in Finset.range (mulByLinear c x).length,
        Polynomial.monomial a ((mulByLinear c x).getD a 0) : Polynomial ℤ)
      = (Polynomial.X - Polynomial.C x)
        * ∑ a in Finset.range c.length, Polynomial.monomial a (c.getD a 0) := by
  ext b
  rw [coeff_listPoly, mulByLinear_getD, sub_mul, Polynomial.coeff_sub, Polynomial.coeff_C_mul,
    coeff_listPoly]
  cases b with
  | zero => rw [Polynomial.coeff_X_mul_zero]; simp
  | succ b => rw [Polynomial.coeff_X_mul, coeff_listPoly]; simp

theorem listPoly_foldl (l : List BigInt) (init : List BigInt) :
    (∑ a in Finset.range (l.foldl mulByLinear init).length,
        Polynomial.monomial a ((l.foldl mulByLinear init).getD a 0) : Polynomial ℤ)
      = (l.map (fun xj => Polynomial.X - Polynomial.C xj)).prod
        * ∑ a in Finset.range init.length, Polynomial.monomial a (init.getD a 0) := by
  induction l generalizing init with
  | nil => simp
  | cons x l ih =>
    rw [List.foldl_cons, ih, listPoly_mulByLinear, List.map_cons, List.prod_cons]
    ring

theorem listPoly_numer (points : List Point) (k i : Nat) :
    (∑ a in Finset.range (numer points k i).length,
        Polynomial.monomial a ((numer points k i).getD a 0) : Polynomial ℤ)
      = ((otherXs points k i).map (fun xj => Polynomial.X - Polynomial.C xj)).prod := by
  unfold numer
  rw [listPoly_foldl]
  simp

theorem evalPoly_eq_sum (c : List BigInt) (X : BigInt) :
    evalPoly c X = ∑ a in Finset.range c.length, c.getD a 0 * X ^ a := by
  induction c with
  | nil => rfl
  | cons c0 cs ih =>
    have h : evalPoly (c0 :: cs) X = c0 + X * evalPoly cs X := rfl
    rw [h, ih, List.length_cons, Finset.sum_range_succ', Finset.mul_sum]
    simp only [List.getD_cons_succ, List.getD_cons_zero, pow_zero, mul_one, pow_succ]
    rw [add_comm]
    congr 1
    apply Finset.sum_congr rfl
    intro a _
    ring

theorem evalPoly_eq_eval (c : List BigInt) (X : BigInt) :
    evalPoly c X
      = (∑ a in Finset.range c.length, Polynomial.monomial a (c.getD a 0) : Polynomial ℤ).eval X := by
  rw [evalPoly_eq_sum, Polynomial.eval_finset_sum]
  simp only [Polynomial.eval_monomial]

theorem evalPoly_numer (points : List Point) (k i : Nat) (X : BigInt) :
    evalPoly (numer points k i) X = ((otherXs points k i).map (fun xj => X - xj)).prod := by
  rw [evalPoly_eq_eval, listPoly_numer, Polynomial.eval_list_prod, List.map_map]
  congr 1
  apply List.map_congr_left
  intro xj _
  simp

theorem list_eq_of_getD (c d : List BigInt) (hlen : c.length = d.length)
    (h : ∀ b, c.getD b 0 = d.getD b 0) : c = d := by
  apply List.ext_getElem hlen
  intro n h1 h2
  have := h n
  rwa [List.getD_eq_getElem c 0 h1, List.getD_eq_getElem d 0 h2] at this

theorem mulByLinear_comm (c : List BigInt) (x y : BigInt) :
    mulByLinear (mulByLinear c x) y = mulByLinear (mulByLinear c y) x := by
  apply list_eq_of_getD
  · rw [mulByLinear_length, mulByLinear_length, mulByLinear_length, mulByLinear_length]
  · intro b
    rw [mulByLinear_getD, mulByLinear_getD, mulByLinear_getD, mulByLinear_getD,
      mulByLinear_getD, mulByLinear_getD]
    rcases b with _ | _ | b
    · simp; ring
    · simp; ring
    · simp; ring

theorem scaledSum_loop (fc tc : List BigInt) (yi denom : BigInt) (n b : Nat) :
    (((List.range n).foldl
        (fun fc a => addAt fc a ((tc.getD a 0 * yi).tdiv denom)) fc).length = fc.length) ∧
      ((List.range n).foldl
        (fun fc a => addAt fc a ((tc.getD a 0 * yi).tdiv denom)) fc).getD b 0
        = fc.getD b 0
          + (if b < n ∧ b < fc.length then (tc.getD b 0 * yi).tdiv denom else 0) := by
  induction n with
  | zero =>
    have e : ¬ (b < 0 ∧ b < fc.length) := by omega
    rw [List.range_zero, List.foldl_nil, if_neg e]
    exact ⟨rfl, (add_zero _).symm⟩
  | succ n ih =>
    obtain ⟨hlen, hb⟩ := ih
    rw [List.range_succ, List.foldl_append, List.foldl_cons, List.foldl_nil]
    refine ⟨by rw [addAt_length, hlen], ?_⟩
    rw [addAt_getD, hlen, hb]
    by_cases h1 : n = b ∧ b < fc.length
    · obtain ⟨h1, h2⟩ := h1
      subst h1
      have e1 : ¬ (n < n ∧ n < fc.length) := by omega
      have e2 : (n < n + 1 ∧ n < fc.length) := by omega
      rw [if_pos ⟨rfl, h2⟩, if_neg e1, if_pos e2, add_zero]
    · have e : (b < n + 1 ∧ b < fc.length) ↔ (b < n ∧ b < fc.length) := by omega
      rw [if_neg h1]
      simp only [e]

theorem scaledSum_getD (fc tc : List BigInt) (yi denom : BigInt) (b : Nat) :
    (scaledSum fc tc yi denom).getD b 0
      = fc.getD b 0
        + (if b < tc.length ∧ b < fc.length then (tc.getD b 0 * yi).tdiv denom else 0) :=
  (scaledSum_loop fc tc yi denom tc.length b).2

theorem outerSum_getD (points : List Point) (k n : Nat) (init : List BigInt)
    (hinit : init.length = k) (hn : n ≤ k) (b : Nat) (hb : b < k) :
    (outerSum points k n init).getD b 0
      = init.getD b 0
        + ∑ i in Finset.range n,
            ((numer points k i).getD b 0 * yAt points i).tdiv
              (denomOf points k i (xAt points i)) := by
  induction n with
  | zero => simp [outerSum]
  | succ n ih =>
    have e : b < (numer points k n).length ∧ b < (outerSum points k n init).length := by
      rw [numer_length points k n (by omega), outerSum_length, hinit]
      exact ⟨hb, hb⟩
    rw [outerSum_succ, scaledSum_getD, if_pos e, ih (by omega), Finset.sum_range_succ]
    ring

/-! ## Index-free form of the terms, for lists with distinct x-coordinates -/

theorem map_fst_eq_range (points : List Point) :
    points.map Prod.fst = (List.range points.length).map (xAt points) := by
  apply List.ext_getElem
  · simp
  · intro n h1 h2
    have hn : n < points.length := by simpa using h1
    simp [xAt, List.getD, List.getElem?_eq_getElem hn]

theorem otherXs_eq_filter (points : List Point) (hx : (points.map Prod.fst).Nodup)
    (i : Nat) (hi : i < points.length) :
    otherXs points points.length i
      = (points.map Prod.fst).filter (fun x => decide (x ≠ xAt points i)) := by
  have hx2 : ((points.take points.length).map Prod.fst).Nodup := by
    rw [List.take_length]; exact hx
  rw [map_fst_eq_range points, List.filter_map]
  unfold otherXs
  congr 1
  apply List.filter_congr
  intro j hj
  have hj2 : j < points.length := List.mem_range.mp hj
  by_cases h : i = j
  · subst h; simp
  · have := xAt_ne_of_nodup points points.length (Nat.le_refl _) hx2 i j hi hj2 (fun e => h e.symm)
    simp [h, this]

theorem sum_range_getD (l : List Point) (f : Point → BigInt) :
    ∑ i in Finset.range l.length, f (l.getD i (0, 0)) = (l.map f).sum := by
  induction l with
  | nil => rfl
  | cons p l ih =>
    rw [List.length_cons, Finset.sum_range_succ', List.map_cons, List.sum_cons, add_comm]
    simp only [List.getD_cons_succ, List.getD_cons_zero]
    rw [ih]

theorem termOf_perm (xs ys : List BigInt) (h : xs.Perm ys) (b : Nat) (p : Point) :
    termOf xs b p = termOf ys b p := by
  unfold termOf
  have hf : (xs.filter (fun x => decide (x ≠ p.1))).Perm
      (ys.filter (fun x => decide (x ≠ p.1))) := h.filter _
  rw [hf.foldl_eq' (fun x _ y _ z => mulByLinear_comm z x y) [1],
    (hf.map (fun xj => p.1 - xj)).prod_eq]

theorem term_eq_termOf (points : List Point) (hx : (points.map Prod.fst).Nodup)
    (i : Nat) (hi : i < points.length) (b : Nat) :
    ((numer points points.length i).getD b 0 * yAt points i).tdiv
        (denomOf points points.length i (xAt points i))
      = termOf (points.map Prod.fst) b (points.getD i (0, 0)) := by
  unfold numer denomOf termOf
  rw [otherXs_eq_filter points hx i hi]
  rfl

theorem interpolate_getD (points : List Point) (hx : (points.map Prod.fst).Nodup)
    (b : Nat) (hb : b < points.length) :
    (outerSum points points.length points.length (List.replicate points.length 0)).getD b 0
      = (points.map (termOf (points.map Prod.fst) b)).sum := by
  rw [outerSum_getD points points.length points.length _ (by simp) (Nat.le_refl _) b hb,
    getD_replicate_zero, zero_add, ← sum_range_getD]
  apply Finset.sum_congr rfl
  intro i hi
  exact term_eq_termOf points hx i (Finset.mem_range.mp hi) b

theorem interpolate_perm (points points2 : List Point) (hx : (points.map Prod.fst).Nodup)
    (hperm : points.Perm points2) :
    interpolate points2 (points2.length : Int) = interpolate points (points.length : Int) := by
  have hx2 : (points2.map Prod.fst).Nodup := (hperm.map Prod.fst).nodup_iff.mp hx
  have hlen : points2.length = points.length := hperm.length_eq.symm
  rw [interpolate_of_nodup points points.length (Nat.le_refl _)
      (by rw [List.take_length]; exact hx),
    interpolate_of_nodup points2 points2.length (Nat.le_refl _)
      (by rw [List.take_length]; exact hx2)]
  congr 1
  apply list_eq_of_getD
  · rw [outerSum_length, outerSum_length, List.length_replicate, List.length_replicate, hlen]
  · intro b
    by_cases hb : b < points.length
    · rw [interpolate_getD points hx b hb, interpolate_getD points2 hx2 b (by omega)]
      have hfun : termOf (points2.map Prod.fst) b = termOf (points.map Prod.fst) b :=
        funext (fun p => termOf_perm _ _ (hperm.map Prod.fst).symm b p)
      rw [hfun]
      exact ((hperm.map _).sum_eq).symm
    · rw [List.getD_eq_default _ _ (by rw [outerSum_length, List.length_replicate]; omega),
        List.getD_eq_default _ _ (by rw [outerSum_length, List.length_replicate]; omega)]

/-! ## Products over the other indices -/

theorem prod_otherXs {M : Type} [CommMonoid M] (points : List Point) (k i : Nat)
    (g : BigInt → M) :
    ((otherXs points k i).map g).prod = ∏ j in (Finset.range k).erase i, g (xAt points j) := by
  unfold otherXs
  rw [List.map_map]
  have hnd : ((List.range k).filter (fun j => decide (i ≠ j))).Nodup :=
    (List.nodup_range k).filter _
  rw [← List.prod_toFinset _ hnd]
  apply Finset.prod_congr
  · ext j
    simp only [List.mem_toFinset, List.mem_filter, List.mem_range, decide_eq_true_eq,
      Finset.mem_erase, Finset.mem_range]
    constructor
    · rintro ⟨h1, h2⟩; exact ⟨fun e => h2 e.symm, h1⟩
    · rintro ⟨h1, h2⟩; exact ⟨h2, fun e => h1 e.symm⟩
  · intro j _; rfl

theorem denomOf_eq_prod (points : List Point) (k i : Nat) (xi : BigInt) :
    denomOf points k i xi = ∏ j in (Finset.range k).erase i, (xi - xAt points j) := by
  unfold denomOf
  exact prod_otherXs points k i (fun xj => xi - xj)

theorem listPoly_numer_prod (points : List Point) (k i : Nat) :
    (∑ a in Finset.range (numer points k i).length,
        Polynomial.monomial a ((numer points k i).getD a 0) : Polynomial ℤ)
      = ∏ j in (Finset.range k).erase i, (Polynomial.X - Polynomial.C (xAt points j)) := by
  rw [listPoly_numer]
  exact prod_otherXs points k i (fun xj => Polynomial.X - Polynomial.C xj)

theorem evalPoly_numer_prod (points : List Point) (k i : Nat) (X : BigInt) :
    evalPoly (numer points k i) X = ∏ j in (Finset.range k).erase i, (X - xAt points j) := by
  rw [evalPoly_numer]
  exact prod_otherXs points k i (fun xj => X - xj)

theorem foldl_mulByLinear_top (l : List BigInt) (init : List BigInt) (h : 0 < init.length) :
    (l.foldl mulByLinear init).getD (init.length + l.length - 1) 0
      = init.getD (init.length - 1) 0 := by
  induction l generalizing init with
  | nil => rfl
  | cons x l ih =>
    rw [List.foldl_cons, List.length_cons]
    have h2 := ih (mulByLinear init x) (by rw [mulByLinear_length]; omega)
    rw [mulByLinear_length] at h2
    have e : init.length + (l.length + 1) - 1 = init.length + 1 + l.length - 1 := by omega
    rw [e, h2, mulByLinear_getD]
    have e2 : init.length + 1 - 1 ≠ 0 := by omega
    have e3 : init.getD (init.length + 1 - 1) 0 = 0 :=
      List.getD_eq_default init 0 (by omega)
    rw [if_neg e2, e3]
    have e4 : init.length + 1 - 1 - 1 = init.length - 1 := by omega
    rw [e4]; ring

theorem numer_top (points : List Point) (k i : Nat) (hi : i < k) :
    (numer points k i).getD (k - 1) 0 = 1 := by
  have h := foldl_mulByLinear_top (otherXs points k i) [1] (by simp)
  rw [otherXs_length, if_pos hi] at h
  have e : [(1 : BigInt)].length + (k - 1) - 1 = k - 1 := by simp
  rw [e] at h
  exact h

/-! ## Interpolation property under exact divisions -/

theorem term_eval_of_exact (points : List Point) (hx : (points.map Prod.fst).Nodup)
    (i m : Nat) (hi : i < points.length) (hm : m < points.length)
    (hexact : ∀ a, a < points.length →
      ((numer points points.length i).getD a 0 * yAt points i).tmod
        (denomOf points points.length i (xAt points i)) = 0) :
    ∑ a in Finset.range points.length,
        ((numer points points.length i).getD a 0 * yAt points i).tdiv
          (denomOf points points.length i (xAt points i)) * xAt points m ^ a
      = if i = m then yAt points m else 0 := by
  have hD : denomOf points points.length i (xAt points i) ≠ 0 :=
    denomOf_ne_zero_of_nodup points points.length (Nat.le_refl _)
      (by rw [List.take_length]; exact hx) i hi
  have hmul : denomOf points points.length i (xAt points i)
      * ∑ a in Finset.range points.length,
        ((numer points points.length i).getD a 0 * yAt points i).tdiv
          (denomOf points points.length i (xAt points i)) * xAt points m ^ a
      = yAt points i * evalPoly (numer points points.length i) (xAt points m) := by
    rw [evalPoly_eq_sum, numer_length points points.length i hi, Finset.mul_sum, Finset.mul_sum]
    apply Finset.sum_congr rfl
    intro a ha
    rw [← mul_assoc, Int.mul_tdiv_cancel_of_tmod_eq_zero (hexact a (Finset.mem_range.mp ha))]
    ring
  rw [evalPoly_numer_prod] at hmul
  by_cases him : i = m
  · subst him
    rw [if_pos rfl]
    rw [← denomOf_eq_prod, mul_comm (yAt points i)] at hmul
    exact mul_left_cancel₀ hD hmul
  · rw [if_neg him]
    have hzero : ∏ j in (Finset.range points.length).erase i, (xAt points m - xAt points j) = 0 :=
      Finset.prod_eq_zero (Finset.mem_erase.mpr ⟨fun e => him e.symm, Finset.mem_range.mpr hm⟩)
        (sub_self _)
    rw [hzero, mul_zero] at hmul
    rcases mul_eq_zero.mp hmul with h | h
    · exact absurd h hD
    · exact h

theorem outerSum_eval_of_exact (points : List Point) (hx : (points.map Prod.fst).Nodup)
    (hexact : ∀ i, i < points.length → ∀ a, a < points.length →
      ((numer points points.length i).getD a 0 * yAt points i).tmod
        (denomOf points points.length i (xAt points i)) = 0)
    (m : Nat) (hm : m < points.length) :
    evalPoly (outerSum points points.length points.length (List.replicate points.length 0))
        (xAt points m) = yAt points m := by
  rw [evalPoly_eq_sum, outerSum_length, List.length_replicate]
  have h1 : ∀ a ∈ Finset.range points.length,
      (outerSum points points.length points.length (List.replicate points.length 0)).getD a 0
          * xAt points m ^ a
        = ∑ i in Finset.range points.length,
          ((numer points points.length i).getD a 0 * yAt points i).tdiv
            (denomOf points points.length i (xAt points i)) * xAt points m ^ a := by
    intro a ha
    rw [outerSum_getD points points.length points.length _ (by simp) (Nat.le_refl _) a
      (Finset.mem_range.mp ha), getD_replicate_zero, zero_add, Finset.sum_mul]
  rw [Finset.sum_congr rfl h1, Finset.sum_comm]
  have h2 : ∀ i ∈ Finset.range points.length,
      ∑ a in Finset.range points.length,
        ((numer points points.length i).getD a 0 * yAt points i).tdiv
          (denomOf points points.length i (xAt points i)) * xAt points m ^ a
        = if i = m then yAt points m else 0 := by
    intro i hi
    exact term_eval_of_exact points hx i m (Finset.mem_range.mp hi) hm
      (hexact i (Finset.mem_range.mp hi))
  rw [Finset.sum_congr rfl h2, Finset.sum_ite_eq', if_pos (Finset.mem_range.mpr hm)]

/-! ## Distinctness from nonzero denominators, and independence of the extra points -/

theorem nodup_of_denomOf_ne_zero (points : List Point)
    (h : ∀ i, i < points.length → denomOf points points.length i (xAt points i) ≠ 0) :
    (points.map Prod.fst).Nodup := by
  rw [map_fst_eq_range points, List.nodup_iff_getElem?_ne_getElem?]
  intro i j hij hj
  have hj2 : j < points.length := by simpa using hj
  have hi2 : i < points.length := by omega
  intro heq
  apply h i hi2
  rw [denomOf_eq_zero_iff]
  refine ⟨j, hj2, by omega, ?_⟩
  have e1 : ((List.range points.length).map (xAt points))[i]? = some (xAt points i) := by
    simp [hi2]
  have e2 : ((List.range points.length).map (xAt points))[j]? = some (xAt points j) := by
    simp [hj2]
  rw [e1, e2] at heq
  exact (Option.some.inj heq).symm

theorem foldlM_congr_mem {σ α : Type} (f g : σ → α → Except Failure σ) (l : List α)
    (h : ∀ s, ∀ a ∈ l, f s a = g s a) (s : σ) : l.foldlM f s = l.foldlM g s := by
  induction l generalizing s with
  | nil => rfl
  | cons a l ih =>
    rw [List.foldlM_cons, List.foldlM_cons, h s a (List.mem_cons_self a l)]
    congr 1
    funext s2
    exact ih (fun s b hb => h s b (List.mem_cons_of_mem a hb)) s2

theorem pointAt_take (points : List Point) (k j : Nat) (hj : j < k) :
    pointAt (points.take k) j = pointAt points j := by
  unfold pointAt
  rw [List.getElem?_take_of_lt hj]

theorem interpolate_take (points : List Point) (k : Nat) :
    interpolate (points.take k) (k : Int) = interpolate points (k : Int) := by
  rw [interpolate_natCast, interpolate_natCast]
  apply foldlM_congr_mem
  intro fc i hi
  have hi2 : i < k := List.mem_range.mp hi
  unfold outerStep
  rw [pointAt_take points k i hi2]
  have hb : ∀ xi, basisTerm (points.take k) k i xi = basisTerm points k i xi := by
    intro xi
    unfold basisTerm
    apply foldlM_congr_mem
    intro st j hj
    unfold innerStep
    rw [pointAt_take points k j (List.mem_range.mp hj)]
  simp only [hb]

/-! ## Further lemmas about `convertToDecimal` -/

theorem toUpper_of_not_lower (c : Char) (h : ¬ (97 ≤ c.toNat ∧ c.toNat ≤ 122)) :
    c.toUpper = c := by
  have h1 : (c.val ≥ 97) ↔ 97 ≤ c.toNat := Iff.rfl
  have h2 : (c.val ≤ 122) ↔ c.toNat ≤ 122 := Iff.rfl
  simp only [Char.toUpper, h1, h2, if_neg h]

theorem digitOf_toLower (c : Char) : digitOf c.toLower = digitOf c := by
  by_cases h : 65 ≤ c.toNat ∧ c.toNat ≤ 90
  · have hc : c = Char.ofNat c.toNat := (Char.ofNat_toNat c).symm
    obtain ⟨h1, h2⟩ := h
    generalize c.toNat = n at *
    subst hc
    interval_cases n <;> rfl
  · rw [toLower_of_not_upper c h]

theorem digitOf_toUpper (c : Char) : digitOf c.toUpper = digitOf c := by
  by_cases h : 97 ≤ c.toNat ∧ c.toNat ≤ 122
  · have hc : c = Char.ofNat c.toNat := (Char.ofNat_toNat c).symm
    obtain ⟨h1, h2⟩ := h
    generalize c.toNat = n at *
    subst hc
    interval_cases n <;> rfl
  · rw [toUpper_of_not_lower c h]

theorem digitOf_eq_none_iff (c : Char) : digitOf c = none ↔ c.isAlphanum = false := by
  unfold digitOf Char.isAlphanum
  cases hd : c.isDigit <;> cases ha : c.isAlpha <;> simp

theorem foldl_digitStep_filter (base : Int) (l : List Char) (acc : BigInt) :
    (l.filter Char.isAlphanum).foldl (digitStep base) acc = l.foldl (digitStep base) acc := by
  induction l generalizing acc with
  | nil => rfl
  | cons c l ih =>
    cases h : c.isAlphanum with
    | true => rw [List.filter_cons_of_pos h, List.foldl_cons, List.foldl_cons, ih]
    | false =>
      have hs : digitStep base acc c = acc := by
        unfold digitStep
        rw [(digitOf_eq_none_iff c).mpr h]
      rw [List.filter_cons_of_neg (by simp [h]), List.foldl_cons, hs, ih]

theorem foldl_digitStep_map (base : Int) (f : Char → Char) (hf : ∀ c, digitOf (f c) = digitOf c)
    (l : List Char) (acc : BigInt) :
    (l.map f).foldl (digitStep base) acc = l.foldl (digitStep base) acc := by
  induction l generalizing acc with
  | nil => rfl
  | cons c l ih =>
    have hs : digitStep base acc (f c) = digitStep base acc c := by
      unfold digitStep
      rw [hf c]
    rw [List.map_cons, List.foldl_cons, List.foldl_cons, hs, ih]

theorem digitValue_nonneg (c : Char) (d : Int) (h : digitValue c = some d) : 0 ≤ d := by
  have hle : ∀ a b : Char, a ≤ b ↔ a.toNat ≤ b.toNat := fun a b => Iff.rfl
  have e0 : '0'.toNat = 48 := rfl
  have ea : 'a'.toNat = 97 := rfl
  have eA : 'A'.toNat = 65 := rfl
  unfold digitValue at h
  simp only [hle, e0, ea, eA] at h
  split_ifs at h with h1 h2 h3
  · have := Option.some.inj h; omega
  · have := Option.some.inj h; omega
  · have := Option.some.inj h; omega

theorem foldl_digitStep_nonneg (base : Int) (hb : 0 ≤ base) (l : List Char) (acc : BigInt)
    (hacc : 0 ≤ acc) : 0 ≤ l.foldl (digitStep base) acc := by
  induction l generalizing acc with
  | nil => exact hacc
  | cons c l ih =>
    rw [List.foldl_cons]
    apply ih
    unfold digitStep
    cases h : digitOf c with
    | none => exact hacc
    | some d =>
      have hd : 0 ≤ d := digitValue_nonneg c d (by rw [← digitOf_eq_digitValue]; exact h)
      exact add_nonneg (mul_nonneg hacc hb) hd

/-! ## Settled properties of `convertToDecimal`, continued -/

/-- C11: for every string s and every base, `convertToDecimal` of s equals `convertToDecimal`
of s with every non-alphanumeric character removed; and inserting a non-alphanumeric character
anywhere in a string does not change the decoded value. -/
theorem convertToDecimal_skips_non_alphanumeric (s : String) (base : Int) :
    convertToDecimal s base
        = convertToDecimal (String.mk (s.toList.filter Char.isAlphanum)) base ∧
      ∀ (l1 l2 : List Char) (c : Char), c.isAlphanum = false →
        convertToDecimal (String.mk (l1 ++ c :: l2)) base
          = convertToDecimal (String.mk (l1 ++ l2)) base := by
  constructor
  · unfold convertToDecimal
    exact (foldl_digitStep_filter base s.toList 0).symm
  · intro l1 l2 c hc
    unfold convertToDecimal
    show (l1 ++ c :: l2).foldl (digitStep base) 0 = (l1 ++ l2).foldl (digitStep base) 0
    rw [← foldl_digitStep_filter base (l1 ++ c :: l2), ← foldl_digitStep_filter base (l1 ++ l2),
      List.filter_append, List.filter_append, List.filter_cons_of_neg (by simp [hc])]

/-- C12: for every string s and every base, `convertToDecimal` of s equals `convertToDecimal`
of s with every letter lower-cased, and equals `convertToDecimal` of s with every letter
upper-cased. -/
theorem convertToDecimal_case_insensitive (s : String) (base : Int) :
    convertToDecimal s base = convertToDecimal (String.mk (s.toList.map Char.toLower)) base ∧
      convertToDecimal s base = convertToDecimal (String.mk (s.toList.map Char.toUpper)) base := by
  unfold convertToDecimal
  exact ⟨(foldl_digitStep_map base Char.toLower digitOf_toLower s.toList 0).symm,
    (foldl_digitStep_map base Char.toUpper digitOf_toUpper s.toList 0).symm⟩

/-- C13: for every base that is not negative, in particular every base in [2, 36], and every
string s, whether or not its digits are below the base, `convertToDecimal` of s is a
non-negative integer. -/
theorem convertToDecimal_nonneg (s : String) (base : Int) (hb : 0 ≤ base) :
    0 ≤ convertToDecimal s base :=
  foldl_digitStep_nonneg base hb s.toList 0 (Int.le_refl 0)

/-- Witness for `convertToDecimal_nonneg`: the string "zz" in base 2, both digits being
above the base. -/
theorem convertToDecimal_nonneg_witness :
    (0 : Int) ≤ 2 ∧ 0 ≤ convertToDecimal "zz" 2 :=
  ⟨by decide, convertToDecimal_nonneg "zz" 2 (by decide)⟩

/-! ## Settled properties of `interpolate`, continued -/

/-- C14: for every list of k points with pairwise-distinct x-coordinates (k ≥ 1 included) and
every permutation of that list, `interpolate` returns a coefficient vector for the original
list and returns the same coefficient vector for the permuted list. -/
theorem interpolate_order_independent (k : Nat) (points points2 : List Point)
    (hlen : points.length = k) (hx : (points.map Prod.fst).Nodup)
    (hperm : points.Perm points2) :
    (∃ v, interpolate points (k : Int) = .ok v) ∧
      interpolate points2 (k : Int) = interpolate points (k : Int) := by
  subst hlen
  refine ⟨⟨_, interpolate_of_nodup points points.length (Nat.le_refl _)
    (by rw [List.take_length]; exact hx)⟩, ?_⟩
  have h := interpolate_perm points points2 hx hperm
  rw [hperm.length_eq.symm] at h
  exact h

/-- Witness for `interpolate_order_independent`: the points (1,1), (2,2), (3,3), whose
per-term quotients are truncated, and the reordering (3,3), (1,1), (2,2). -/
theorem interpolate_order_independent_witness :
    ([((1 : BigInt), (1 : BigInt)), (2, 2), (3, 3)].length = 3 ∧
      ([((1 : BigInt), (1 : BigInt)), (2, 2), (3, 3)].map Prod.fst).Nodup ∧
      [((1 : BigInt), (1 : BigInt)), (2, 2), (3, 3)].Perm [(3, 3), (1, 1), (2, 2)]) ∧
      (∃ v, interpolate [(1, 1), (2, 2), (3, 3)] ((3 : Nat) : Int) = .ok v) ∧
      interpolate [(3, 3), (1, 1), (2, 2)] ((3 : Nat) : Int)
        = interpolate [(1, 1), (2, 2), (3, 3)] ((3 : Nat) : Int) :=
  ⟨by decide,
    interpolate_order_independent 3 [(1, 1), (2, 2), (3, 3)] [(3, 3), (1, 1), (2, 2)] rfl
      (by decide) (by decide)⟩

/-- C15: one multiplication step maps a coefficient list c to a list of length |c| + 1 whose
polynomial is (X - xj) * c(X), so [c0, c1] becomes [-xj*c0, c0 - xj*c1, c1]; and for every
i < k, on a list of at least k points, the inner loop ends without failure with term_coeffs of
length k, leading coefficient 1, whose polynomial is the product over all j < k, j ≠ i, of
(X - x_j); its value at every integer X is the product of the X - x_j. -/
theorem basis_numerator (c : List BigInt) (xj c0 c1 : BigInt) (points : List Point)
    (k i : Nat) (xi : BigInt) (hk : k ≤ points.length) (hi : i < k) :
    ((mulByLinear c xj).length = c.length + 1 ∧
      (∑ a in Finset.range (mulByLinear c xj).length,
          Polynomial.monomial a ((mulByLinear c xj).getD a 0) : Polynomial ℤ)
        = (Polynomial.X - Polynomial.C xj)
          * ∑ a in Finset.range c.length, Polynomial.monomial a (c.getD a 0) ∧
      (∀ X : BigInt, evalPoly (mulByLinear c xj) X = (X - xj) * evalPoly c X) ∧
      mulByLinear [c0, c1] xj = [-xj * c0, c0 - xj * c1, c1]) ∧
    ∃ tc d, basisTerm points k i xi = .ok (tc, d) ∧ tc.length = k ∧ tc.getD (k - 1) 0 = 1 ∧
      (∑ a in Finset.range tc.length, Polynomial.monomial a (tc.getD a 0) : Polynomial ℤ)
        = ∏ j in (Finset.range k).erase i, (Polynomial.X - Polynomial.C (xAt points j)) ∧
      ∀ X : BigInt, evalPoly tc X = ∏ j in (Finset.range k).erase i, (X - xAt points j) := by
  refine ⟨⟨mulByLinear_length c xj, listPoly_mulByLinear c xj, ?_, ?_⟩, ?_⟩
  · intro X
    rw [evalPoly_eq_eval, listPoly_mulByLinear, Polynomial.eval_mul, ← evalPoly_eq_eval]
    simp
  · apply list_eq_of_getD
    · rw [mulByLinear_length]; rfl
    · intro b
      rw [mulByLinear_getD]
      rcases b with _ | _ | _ | b <;> simp
  · exact ⟨numer points k i, denomOf points k i xi, basisTerm_eq points k i xi hk,
      numer_length points k i hi, numer_top points k i hi, listPoly_numer_prod points k i,
      evalPoly_numer_prod points k i⟩

/-- Witness for `basis_numerator`: the list [5, 7] multiplied by (X - 3), and index 1 of the
three points (1,4), (2,7), (3,12). -/
theorem basis_numerator_witness :
    (3 ≤ [((1 : BigInt), (4 : BigInt)), (2, 7), (3, 12)].length ∧ 1 < 3) ∧
      mulByLinear [5, 7] 3 = [-15, -16, 7] ∧
      basisTerm [(1, 4), (2, 7), (3, 12)] 3 1 2 = .ok ([3, -4, 1], -1) ∧
      ∃ tc d, basisTerm [(1, 4), (2, 7), (3, 12)] 3 1 2 = .ok (tc, d) ∧ tc.length = 3 ∧
        tc.getD (3 - 1) 0 = 1 ∧
        (∑ a in Finset.range tc.length, Polynomial.monomial a (tc.getD a 0) : Polynomial ℤ)
          = ∏ j in (Finset.range 3).erase 1,
              (Polynomial.X - Polynomial.C (xAt [(1, 4), (2, 7), (3, 12)] j)) ∧
        ∀ X : BigInt, evalPoly tc X
          = ∏ j in (Finset.range 3).erase 1, (X - xAt [(1, 4), (2, 7), (3, 12)] j) :=
  ⟨by decide, by decide, by decide,
    (basis_numerator [5, 7] 3 0 0 [(1, 4), (2, 7), (3, 12)] 3 1 2 (by decide) (by decide)).2⟩

/-- C16: for every list of k points with pairwise-distinct x (k ≥ 1 included), `interpolate`
returns a vector of length k whose coefficient a, for every a < k, is the sum over i < k of the
quotient, truncated toward zero, of N_i[a] * y_i by D_i; here (N_i, D_i) is what the inner
loop computes for index i, N_i is the coefficient vector of the product over j ≠ i of
(X - x_j), and D_i is the product over j ≠ i of (x_i - x_j). The product with y_i is formed
before the division. -/
theorem interpolate_per_term (k : Nat) (points : List Point)
    (hlen : points.length = k) (hx : (points.map Prod.fst).Nodup) :
    (∀ i, i < k →
      basisTerm points k i (xAt points i)
          = .ok (numer points k i, denomOf points k i (xAt points i)) ∧
        (∑ a in Finset.range (numer points k i).length,
            Polynomial.monomial a ((numer points k i).getD a 0) : Polynomial ℤ)
          = ∏ j in (Finset.range k).erase i, (Polynomial.X - Polynomial.C (xAt points j)) ∧
        denomOf points k i (xAt points i)
          = ∏ j in (Finset.range k).erase i, (xAt points i - xAt points j)) ∧
    ∃ v, interpolate points (k : Int) = .ok v ∧ v.length = k ∧
      ∀ a, a < k →
        v.getD a 0 = ∑ i in Finset.range k,
          ((numer points k i).getD a 0 * yAt points i).tdiv
            (denomOf points k i (xAt points i)) := by
  subst hlen
  refine ⟨fun i _ => ⟨basisTerm_eq points _ i _ (Nat.le_refl _), listPoly_numer_prod points _ i,
    denomOf_eq_prod points _ i _⟩, ?_⟩
  refine ⟨_, interpolate_of_nodup points points.length (Nat.le_refl _)
    (by rw [List.take_length]; exact hx), by rw [outerSum_length, List.length_replicate], ?_⟩
  intro a ha
  rw [outerSum_getD points points.length points.length _ (by simp) (Nat.le_refl _) a ha,
    getD_replicate_zero, zero_add]

/-- Witness for `interpolate_per_term`: the points (1,1), (2,2), (3,3), for which the sum of
the truncated quotients is [0, 2, -1]. -/
theorem interpolate_per_term_witness :
    ([((1 : BigInt), (1 : BigInt)), (2, 2), (3, 3)].length = 3 ∧
      ([((1 : BigInt), (1 : BigInt)), (2, 2), (3, 3)].map Prod.fst).Nodup) ∧
      interpolate [(1, 1), (2, 2), (3, 3)] ((3 : Nat) : Int) = .ok [0, 2, -1] ∧
      ∃ v, interpolate [(1, 1), (2, 2), (3, 3)] ((3 : Nat) : Int) = .ok v ∧ v.length = 3 ∧
        ∀ a, a < 3 →
          v.getD a 0 = ∑ i in Finset.range 3,
            ((numer [(1, 1), (2, 2), (3, 3)] 3 i).getD a 0
                * yAt [(1, 1), (2, 2), (3, 3)] i).tdiv
              (denomOf [(1, 1), (2, 2), (3, 3)] 3 i (xAt [(1, 1), (2, 2), (3, 3)] i)) :=
  ⟨by decide, by decide,
    (interpolate_per_term 3 [(1, 1), (2, 2), (3, 3)] rfl (by decide)).2⟩

/-- C17: for every list of k points with pairwise-distinct x-coordinates (k ≥ 1 included) such
that every division term_coeffs[a] * y_i / denom performed by `interpolate` leaves remainder
zero, `interpolate` returns a coefficient vector whose polynomial takes the value y_i at x_i
for every i < k, and whose coefficient 0 is its value at 0. -/
theorem interpolate_correct_of_exact (k : Nat) (points : List Point)
    (hlen : points.length = k) (hx : (points.map Prod.fst).Nodup)
    (hexact : ∀ i a tc d, i < k → a < k →
      basisTerm points k i (xAt points i) = .ok (tc, d) →
      (tc.getD a 0 * yAt points i).tmod d = 0) :
    ∃ v, interpolate points (k : Int) = .ok v ∧
      (∀ i, i < k → evalPoly v (xAt points i) = yAt points i) ∧
      v.getD 0 0 = evalPoly v 0 := by
  subst hlen
  refine ⟨_, interpolate_of_nodup points points.length (Nat.le_refl _)
    (by rw [List.take_length]; exact hx), ?_, ?_⟩
  · intro m hm
    apply outerSum_eval_of_exact points hx _ m hm
    intro i hi a ha
    exact hexact i a _ _ hi ha (basisTerm_eq points _ i _ (Nat.le_refl _))
  · generalize outerSum points points.length points.length _ = v
    cases v with
    | nil => rfl
    | cons c cs =>
      show c = c + 0 * evalPoly cs 0
      ring

/-- Witness for `interpolate_correct_of_exact`: the points (1,4), (2,7), (3,12), for which all
nine divisions are exact. -/
theorem interpolate_correct_of_exact_witness :
    ([((1 : BigInt), (4 : BigInt)), (2, 7), (3, 12)].length = 3 ∧
      ([((1 : BigInt), (4 : BigInt)), (2, 7), (3, 12)].map Prod.fst).Nodup ∧
      ∀ i a tc d, i < 3 → a < 3 →
        basisTerm [(1, 4), (2, 7), (3, 12)] 3 i (xAt [(1, 4), (2, 7), (3, 12)] i) = .ok (tc, d) →
        (tc.getD a 0 * yAt [(1, 4), (2, 7), (3, 12)] i).tmod d = 0) ∧
      ∃ v, interpolate [(1, 4), (2, 7), (3, 12)] ((3 : Nat) : Int) = .ok v ∧
        (∀ i, i < 3 → evalPoly v (xAt [(1, 4), (2, 7), (3, 12)] i)
          = yAt [(1, 4), (2, 7), (3, 12)] i) ∧
        v.getD 0 0 = evalPoly v 0 := by
  have hexact : ∀ i a tc d, i < 3 → a < 3 →
      basisTerm [(1, 4), (2, 7), (3, 12)] 3 i (xAt [(1, 4), (2, 7), (3, 12)] i) = .ok (tc, d) →
      (tc.getD a 0 * yAt [(1, 4), (2, 7), (3, 12)] i).tmod d = 0 := by
    intro i a tc d hi ha h
    have e0 : basisTerm [(1, 4), (2, 7), (3, 12)] 3 0 (xAt [(1, 4), (2, 7), (3, 12)] 0)
        = .ok ([6, -5, 1], 2) := by decide
    have e1 : basisTerm [(1, 4), (2, 7), (3, 12)] 3 1 (xAt [(1, 4), (2, 7), (3, 12)] 1)
        = .ok ([3, -4, 1], -1) := by decide
    have e2 : basisTerm [(1, 4), (2, 7), (3, 12)] 3 2 (xAt [(1, 4), (2, 7), (3, 12)] 2)
        = .ok ([2, -3, 1], 2) := by decide
    interval_cases i
    · rw [e0] at h
      cases h
      interval_cases a <;> decide
    · rw [e1] at h
      cases h
      interval_cases a <;> decide
    · rw [e2] at h
      cases h
      interval_cases a <;> decide
  exact ⟨⟨rfl, by decide, hexact⟩,
    interpolate_correct_of_exact 3 [(1, 4), (2, 7), (3, 12)] rfl (by decide) hexact⟩

/-- C18: for every list of k points (k ≥ 1 included), the denominator denom computed by the
inner loop is nonzero for every index i < k if and only if the k x-coordinates are pairwise
distinct; hence with distinct x-coordinates `interpolate` returns a coefficient vector and
does not fail with a division by zero. -/
theorem denominators_nonzero_iff_distinct (k : Nat) (points : List Point)
    (hlen : points.length = k) :
    ((∀ i, i < k → ∃ tc d, basisTerm points k i (xAt points i) = .ok (tc, d) ∧ d ≠ 0)
        ↔ (points.map Prod.fst).Nodup) ∧
      ((points.map Prod.fst).Nodup →
        (∃ v, interpolate points (k : Int) = .ok v) ∧
          interpolate points (k : Int) ≠ .error .overflow_error) := by
  subst hlen
  have hok : (points.map Prod.fst).Nodup →
      interpolate points (points.length : Int)
        = .ok (outerSum points points.length points.length (List.replicate points.length 0)) :=
    fun hx => interpolate_of_nodup points points.length (Nat.le_refl _)
      (by rw [List.take_length]; exact hx)
  refine ⟨⟨?_, ?_⟩, fun hx => ⟨⟨_, hok hx⟩, by rw [hok hx]; exact fun h => nomatch h⟩⟩
  · intro h
    apply nodup_of_denomOf_ne_zero
    intro i hi
    obtain ⟨tc, d, hb, hd⟩ := h i hi
    rw [basisTerm_eq points _ i _ (Nat.le_refl _)] at hb
    cases hb
    exact hd
  · intro hx i hi
    exact ⟨_, _, basisTerm_eq points _ i _ (Nat.le_refl _),
      denomOf_ne_zero_of_nodup points points.length (Nat.le_refl _)
        (by rw [List.take_length]; exact hx) i hi⟩

/-- Witness for `denominators_nonzero_iff_distinct`: the points (1,10), (2,5), (1,20), whose
x-coordinates are not distinct, so that some denominator is zero. -/
theorem denominators_nonzero_iff_distinct_witness :
    [((1 : BigInt), (10 : BigInt)), (2, 5), (1, 20)].length = 3 ∧
      ¬ ([((1 : BigInt), (10 : BigInt)), (2, 5), (1, 20)].map Prod.fst).Nodup ∧
      ¬ (∀ i, i < 3 → ∃ tc d,
        basisTerm [(1, 10), (2, 5), (1, 20)] 3 i (xAt [(1, 10), (2, 5), (1, 20)] i)
          = .ok (tc, d) ∧ d ≠ 0) :=
  ⟨rfl, by decide, fun h =>
    absurd ((denominators_nonzero_iff_distinct 3 [(1, 10), (2, 5), (1, 20)] rfl).1.mp h)
      (by decide)⟩

/-- C19: for every two point lists that agree on their first k entries, the first of length at
least k (so that the second is too), with pairwise-distinct x among those k (k ≥ 1 included),
`interpolate` with threshold k returns the same coefficient vector for both, and that vector is
what `interpolate` returns on the first k points alone. -/
theorem interpolate_ignores_extra_points (k : Nat) (p q : List Point)
    (hp : k ≤ p.length) (hagree : p.take k = q.take k)
    (hx : ((p.take k).map Prod.fst).Nodup) :
    ∃ v, interpolate p (k : Int) = .ok v ∧ interpolate q (k : Int) = .ok v ∧
      interpolate (p.take k) (k : Int) = .ok v := by
  have h1 := interpolate_of_nodup p k hp hx
  refine ⟨_, h1, ?_, ?_⟩
  · rw [← interpolate_take q k, ← hagree, interpolate_take p k]; exact h1
  · rw [interpolate_take p k]; exact h1

/-- Witness for `interpolate_ignores_extra_points`: k = 2 with the first two points (1,1),
(2,4) followed by (3,9) in one list and by (5,0), (6,0) in the other. -/
theorem interpolate_ignores_extra_points_witness :
    (2 ≤ [((1 : BigInt), (1 : BigInt)), (2, 4), (3, 9)].length ∧
      [((1 : BigInt), (1 : BigInt)), (2, 4), (3, 9)].take 2
        = [((1 : BigInt), (1 : BigInt)), (2, 4), (5, 0), (6, 0)].take 2 ∧
      (([((1 : BigInt), (1 : BigInt)), (2, 4), (3, 9)].take 2).map Prod.fst).Nodup) ∧
      ∃ v, interpolate [(1, 1), (2, 4), (3, 9)] ((2 : Nat) : Int) = .ok v ∧
        interpolate [(1, 1), (2, 4), (5, 0), (6, 0)] ((2 : Nat) : Int) = .ok v ∧
        interpolate ([(1, 1), (2, 4), (3, 9)].take 2) ((2 : Nat) : Int) = .ok v :=
  ⟨by decide,
    interpolate_ignores_extra_points 2 [(1, 1), (2, 4), (3, 9)] [(1, 1), (2, 4), (5, 0), (6, 0)]
      (by decide) (by decide) (by decide)⟩

/-- C20: `convertToDecimal` has no failure outcome, and a digit at or above the base is
accepted: for every base (in particular every base in [2, 36]) and every alphanumeric character
c with digit value d (in particular d ≥ base), `convertToDecimal` of the one-character string c
returns d; so that the different strings "2" and "10" both decode to 2 in base 2. -/
theorem convertToDecimal_accepts_out_of_range (base : Int) (c : Char) (d : Int)
    (hd : digitValue c = some d) :
    convertToDecimal (String.mk [c]) base = d ∧
      convertToDecimal "2" 2 = 2 ∧ convertToDecimal "10" 2 = 2 ∧ "2" ≠ "10" := by
  refine ⟨?_, by decide, by decide, by decide⟩
  show digitStep base 0 c = d
  unfold digitStep
  rw [digitOf_eq_digitValue, hd]
  simp

/-- Witness for `convertToDecimal_accepts_out_of_range`: the character 'z', of digit value 35,
in base 2. -/
theorem convertToDecimal_accepts_out_of_range_witness :
    (digitValue 'z' = some 35 ∧ (2 : Int) ≤ 35) ∧
      convertToDecimal (String.mk ['z']) 2 = 35 :=
  ⟨by decide, (convertToDecimal_accepts_out_of_range 2 'z' 35 (by decide)).1⟩

end SolvePoly
